import Mathlib

/-!
Verification development for the archive-retention engine of
`libs/RSyncBackup.py` (class `RSyncBackup`, helpers `pathWalker` and
`pathRemover`).

The Python code is shallowly embedded as follows.

* Path strings are `List Char`; Python's string comparison (used by
  `matchingPaths.sort()`) compares Unicode code points, embedded by `lexLt`
  via `Char.toNat`.
* The slice `matchingPaths[0 : -1 * entriesToKeep]` is embedded by
  `pySliceStop`, which reproduces Python's slicing rules for a possibly
  negative stop index (`entriesToKeep` is an `Int`).
* The filesystem is a list of entries `(path, isDir)`, where a path is the
  list of its segments relative to the filesystem root; the absolute string
  form of a segment path is recovered by `render` (POSIX separators, no
  trailing slash, as produced by `os.path.join`).  With this representation
  `os.path.split(p)[0]` is `p.dropLast` and the Python loop condition
  `lastParent == parent` holds exactly for the root `[]`.
* `os.listdir`, `os.path.isdir`, `os.remove` and `os.rmdir` become
  `childPaths`, `isdir`, `removeFile` and `rmdirF`.  The model assumes the
  process owns the tree (no concurrent mutation), that the OS calls made by
  the code succeed (except where failures are modelled explicitly, see
  `trimLoopE`), and that path strings contain no newline except where the
  regex semantics makes the distinction relevant.
* The default trim filter
  `re.escape(archiveDir) + '/[0-9]{4,4}/[0-9]{2,2}/[0-9]{8,8}-[0-9]{6,6}$'`
  used with `re.search` is embedded by `defaultMatch`: a search succeeds iff
  some suffix of the subject starts with the literal `archiveDir` and
  continues with `/dddd/dd/dddddddd-dddddd` followed by the end of the
  string or by a single final newline (Python's `$` also matches just
  before a trailing newline).
* `os.path.walk` over an existing, well-formed tree enumerates every strict
  descendant of the root exactly once; `pathWalker.walk` therefore yields
  the strict descendants of `archiveDir` (`walkerPaths`), in an order that
  is irrelevant because the caller sorts the result.
-/

/-! ## Python string comparison -/

/-- Python's `<` on strings: lexicographic comparison of code points.
`Char.toNat` is the code point. -/
def lexLt : List Char → List Char → Bool
  | _, [] => false
  | [], _ :: _ => true
  | a :: as, b :: bs => decide (a.toNat < b.toNat) || (a.toNat == b.toNat && lexLt as bs)

/-- Python's `<=` on strings, the order `list.sort()` sorts by. -/
def lexLe (a b : List Char) : Bool := lexLt a b || a == b

/-! ## The selection step of `trimArchives` (lines 137-141)

`matchingPaths.sort()` followed by `matchingPaths[0 : -1 * entriesToKeep]`. -/

/-- Python slice `l[0 : j]` for an arbitrary (possibly negative) `j`. -/
def pySliceStop (l : List α) (j : Int) : List α :=
  if j < 0 then l.take (l.length - (-j).toNat)
  else l.take j.toNat

/-- The selection step of `RSyncBackup.trimArchives`: sort the matched path
strings ascending, then take the slice `[0 : -1 * entriesToKeep]`. -/
def pathsToTrim (matchingPaths : List (List Char)) (entriesToKeep : Int) :
    List (List Char) :=
  pySliceStop (List.insertionSort (fun a b => lexLe a b = true) matchingPaths)
    (-1 * entriesToKeep)

/-! ## The default trim filter (lines 128-132) and `pathWalker` (182-194) -/

/-- Consume exactly `n` characters from class `[0-9]`, returning the rest. -/
def digitsN : Nat → List Char → Option (List Char)
  | 0, v => some v
  | n + 1, c :: v => if c.isDigit then digitsN n v else none
  | _ + 1, [] => none

/-- Python `$`: matches at the end of the string, or just before a single
newline that ends the string. -/
def dollarEnd (v : List Char) : Bool := v == [] || v == ['\n']

/-- Consume one literal character. -/
def expectChar (c : Char) : List Char → Option (List Char)
  | x :: v => if x = c then some v else none
  | [] => none

/-- Does `'/[0-9]{4,4}/[0-9]{2,2}/[0-9]{8,8}-[0-9]{6,6}$'` consume `v`
completely (starting right after the literal `archiveDir`)? -/
def fixedTail (v : List Char) : Bool :=
  match (((((((expectChar '/' v).bind (digitsN 4)).bind (expectChar '/')).bind
      (digitsN 2)).bind (expectChar '/')).bind (digitsN 8)).bind
      (expectChar '-')).bind (digitsN 6) with
  | some r => dollarEnd r
  | none => false

/-- Does `p` hold of some suffix of the list (`re.search` tries every
start position)? -/
def anySuffix (p : List Char → Bool) : List Char → Bool
  | [] => p []
  | c :: cs => p (c :: cs) || anySuffix p (cs)

/-- `re.search` of the compiled default filter against a path string:
some suffix of the subject is the literal `archiveDir`
(via `re.escape`) followed by the fixed date-stamp tail. -/
def defaultMatch (archiveDir : List Char) (s : List Char) : Bool :=
  anySuffix (fun t => archiveDir.isPrefixOf t && fixedTail (t.drop archiveDir.length)) s

/-- The fixed tail `/<4 digits>/<2 digits>/<8 digits>-<6 digits>` followed by
`rest`, written out as a list shape. -/
def FixedTailShape (v rest : List Char) : Prop :=
  ∃ y d a b,
    v = '/' :: (y ++ '/' :: (d ++ '/' :: (a ++ '-' :: (b ++ rest)))) ∧
    y.length = 4 ∧ y.all Char.isDigit = true ∧
    d.length = 2 ∧ d.all Char.isDigit = true ∧
    a.length = 8 ∧ a.all Char.isDigit = true ∧
    b.length = 6 ∧ b.all Char.isDigit = true

/-- The shape the spec describes: the path ends (exactly at the end of the
string) with `archiveDir/<4 digits>/<2 digits>/<8 digits>-<6 digits>`. -/
def SpecEndsWith (archiveDir : List Char) (s : List Char) : Prop :=
  ∃ u v, s = u ++ archiveDir ++ v ∧ FixedTailShape v []

/-! ## Filesystem model

A path is its list of segments below the filesystem root; an entry pairs a
path with its kind (`true` = directory).  `os.path.split(p)[0]` is
`p.dropLast`; the root `[]` is the unique path equal to its own parent. -/

abbrev FPath := List String

abbrev FEntry := FPath × Bool

abbrev FS := List FEntry

/-- `os.listdir(p)`: the paths of the entries directly inside `p`. -/
def childPaths (fs : FS) (p : FPath) : List FPath :=
  (fs.filter (fun e => !e.1.isEmpty && e.1.dropLast == p)).map (fun e => e.1)

/-- `os.path.isdir(p)`. -/
def isdir (fs : FS) (p : FPath) : Bool :=
  fs.any (fun e => e.1 == p && e.2)

/-- `os.remove(p)` (assumed to succeed): drop the file entry at `p`. -/
def removeFile (fs : FS) (p : FPath) : FS :=
  fs.filter (fun e => !(e.1 == p && !e.2))

/-- `os.rmdir(p)` (assumed to succeed): drop the directory entry at `p`. -/
def rmdirF (fs : FS) (p : FPath) : FS :=
  fs.filter (fun e => !(e.1 == p && e.2))

/-- Absolute string form of a segment path, as `os.path.join` builds it:
`render ["A", "2020"] = "/A/2020"`. -/
def render (p : FPath) : List Char :=
  p.foldl (fun acc s => acc ++ '/' :: s.toList) []

/-! ## `pathRemover` (lines 196-214)

`os.path.walk` visits a directory, lets the callback delete the files and
note the subdirectories, and then recurses into the subdirectories; the
collected directories are then removed in reverse (deepest-first) order.
In `walkNode`, `fuel` bounds the recursion depth and is chosen larger than
any path length in the tree, so it never runs out on a well-formed tree. -/

def walkNode : Nat → FS → FPath → (List FPath × FS)
  | 0, fs, _ => ([], fs)
  | fuel + 1, fs, p =>
    let names := childPaths fs p
    let dirs := names.filter (fun q => isdir fs q)
    let fs1 := fs.filter (fun e => !(names.contains e.1 && !e.2))
    dirs.foldl (fun acc d =>
      let r := walkNode fuel acc.2 d
      (acc.1 ++ r.1, r.2)) (dirs, fs1)

/-- Fuel larger than every path length in the filesystem. -/
def fsFuel (fs : FS) : Nat :=
  ((fs.map (fun e => e.1.length)).foldr Nat.max 0) + 1

/-- `pathRemover().walk(p)`: delete every descendant file top-down while
collecting every descendant directory, then `os.rmdir` the collected
directories deepest-first. -/
def pathRemoverWalk (fs : FS) (p : FPath) : FS :=
  let r := walkNode (fsFuel fs) fs p
  (r.1.reverse).foldl (fun acc d => rmdirF acc d) r.2

/-- Lines 146-148 of `trimArchives`: `pathKiller.walk(p)` then
`os.rmdir(p)`. -/
def removeTree (fs : FS) (p : FPath) : FS :=
  rmdirF (pathRemoverWalk fs p) p

/-- Lines 146-150: directory paths get the tree treatment, other paths
`os.remove`. -/
def removeSelected (fs : FS) (p : FPath) : FS :=
  if isdir fs p then removeTree fs p else removeFile fs p

/-! ## The ancestor-pruning loop (lines 151-167) -/

/-- The `while looking` loop on the reversed path of `lastParent`: each step
peels the last segment, so the head of the argument is the segment that
distinguishes `lastParent` from `parent = os.path.split(lastParent)[0]`;
the empty list is the root, for which `lastParent == parent` stops the
loop.  If the parent directory is empty, remove it (unless `testRun`) and
carry on upward; otherwise stop. -/
def pruneRev (testRun : Bool) : FS → List String → FS
  | fs, [] => fs
  | fs, _ :: rev =>
    let parent := rev.reverse
    if (childPaths fs parent).isEmpty then
      pruneRev testRun (if testRun then fs else rmdirF fs parent) rev
    else fs

/-- Lines 151-167: the ancestor-pruning loop, starting from
`lastParent = pathToRemove`. -/
def pruneLoopT (testRun : Bool) (fs : FS) (lastParent : FPath) : FS :=
  pruneRev testRun fs lastParent.reverse

/-! ## `pathWalker` and the full `trimArchives` (lines 117-167) -/

/-- `pathWalker(filter).walk(archiveDir)` before filtering: `os.path.walk`
enumerates every strict descendant of the (existing, well-formed) root, in a
traversal order the caller discards by sorting. -/
def walkerPaths (fs : FS) (root : FPath) : List FPath :=
  (fs.filter (fun e => root.isPrefixOf e.1 && !(e.1 == root))).map (fun e => e.1)

/-- The matched candidate paths: every walked path whose absolute string
form the compiled default filter matches. -/
def candidates (fs : FS) (archiveDir : FPath) : List FPath :=
  (walkerPaths fs archiveDir).filter (fun q => defaultMatch (render archiveDir) (render q))

/-- `matchingPaths.sort()`: ascending in the Python string order of the
absolute path strings. -/
def sortByRender (l : List FPath) : List FPath :=
  List.insertionSort (fun p q => lexLe (render p) (render q) = true) l

/-- Lines 128-140 for `filter=None`: matched candidates, sorted, sliced to
`[0 : -1 * entriesToKeep]`. -/
def selectedFor (fs : FS) (archiveDir : FPath) (entriesToKeep : Int) : List FPath :=
  pySliceStop (sortByRender (candidates fs archiveDir)) (-1 * entriesToKeep)

/-- The `for pathToRemove in pathsToTrim` loop (lines 142-167): remove the
path (unless `testRun`), then walk and prune empty ancestors (when
`removeParentIfEmpty`). -/
def trimLoopT (testRun removeParentIfEmpty : Bool) : FS → List FPath → FS
  | fs, [] => fs
  | fs, p :: ps =>
    let fs1 := if testRun then fs else removeSelected fs p
    let fs2 := if removeParentIfEmpty then pruneLoopT testRun fs1 p else fs1
    trimLoopT testRun removeParentIfEmpty fs2 ps

/-- `RSyncBackup.trimArchives` with the default filter, returning the
selected-for-removal list it computed together with the final filesystem.
(The Python method returns `None`; the selection is exposed for the
statements below.) -/
def trimArchives (testRun : Bool) (fs : FS) (archiveDir : FPath)
    (entriesToKeep : Int) (removeParentIfEmpty : Bool) : List FPath × FS :=
  let pathsToRemove := selectedFor fs archiveDir entriesToKeep
  (pathsToRemove, trimLoopT testRun removeParentIfEmpty fs pathsToRemove)

/-! ## Failure-aware removal loop (for the error-policy claim)

`trimArchives` wraps no `try`/`except` around the removal loop, so the
first OS failure propagates as an exception and the loop never reaches the
remaining selected paths.  `fails p = true` models the first OS call for
`p` raising; the pair returned is the filesystem state left behind and the
exception (the failing path), `none` when the loop completed. -/

def trimLoopE (fails : FPath → Bool) (removeParentIfEmpty : Bool) :
    FS → List FPath → FS × Option FPath
  | fs, [] => (fs, none)
  | fs, p :: ps =>
    if fails p then (fs, some p)
    else
      let fs1 := removeSelected fs p
      let fs2 := if removeParentIfEmpty then pruneLoopT false fs1 p else fs1
      trimLoopE fails removeParentIfEmpty fs2 ps

/-- A real (`testRun=0`) `trimArchives` run in which the OS calls for the
paths in `fails` raise: selection as in the code, then the unguarded
removal loop. -/
def trimArchivesE (fails : FPath → Bool) (fs : FS) (archiveDir : FPath)
    (entriesToKeep : Int) (removeParentIfEmpty : Bool) :
    List FPath × FS × Option FPath :=
  let pathsToRemove := selectedFor fs archiveDir entriesToKeep
  (pathsToRemove, trimLoopE fails removeParentIfEmpty fs pathsToRemove)

/-! ## Well-formedness of the filesystem model -/

/-- Every entry has a nonempty path whose parent is either the root or a
directory entry of the filesystem. -/
def ParentClosed (fs : FS) : Prop :=
  ∀ e ∈ fs, e.1 ≠ [] ∧ (e.1.dropLast = [] ∨ (e.1.dropLast, true) ∈ fs)

/-- A well-formed tree: one entry per path, parents present as directories. -/
def WFfs (fs : FS) : Prop :=
  (fs.map (fun e => e.1)).Nodup ∧ ParentClosed fs

/-- `q` lies strictly below `p`. -/
def strictUnder (p q : FPath) : Prop :=
  p <+: q ∧ p ≠ q

/-! ## The archive paths `backup` builds (lines 94-98)

`dateTime = time.strftime("%d%m%Y-%H%M%S")` and
`thisArchive = os.path.join(archive, dateTime[4:8], dateTime[2:4], dateTime)`.
`strftime` zero-pads every field to fixed width. -/

structure Timestamp where
  day : Nat
  month : Nat
  year : Nat
  hour : Nat
  minute : Nat
  second : Nat

/-- The decimal digit character for `n % 10 `-like arguments below 10. -/
def digitCh : Nat → Char
  | 0 => '0'
  | 1 => '1'
  | 2 => '2'
  | 3 => '3'
  | 4 => '4'
  | 5 => '5'
  | 6 => '6'
  | 7 => '7'
  | 8 => '8'
  | _ => '9'

/-- Two-digit zero-padded decimal (`%d`, `%m`, `%H`, `%M`, `%S`). -/
def pad2 (n : Nat) : List Char := [digitCh (n / 10), digitCh (n % 10)]

/-- Four-digit zero-padded decimal (`%Y` for years below 10000). -/
def pad4 (n : Nat) : List Char := pad2 (n / 100) ++ pad2 (n % 100)

/-- `time.strftime("%d%m%Y-%H%M%S")` at timestamp `t`. -/
def dateTimeStr (t : Timestamp) : List Char :=
  pad2 t.day ++ pad2 t.month ++ pad4 t.year ++ '-' :: (pad2 t.hour ++ pad2 t.minute ++ pad2 t.second)

/-- `os.path.join` of an absolute directory (no trailing slash) with a
relative component. -/
def pathJoin (a b : List Char) : List Char := a ++ '/' :: b

/-- Line 96: `os.path.join(archive, dateTime[4:8], dateTime[2:4], dateTime)`. -/
def thisArchive (archive : List Char) (t : Timestamp) : List Char :=
  let dateTime := dateTimeStr t
  pathJoin (pathJoin (pathJoin archive ((dateTime.drop 4).take 4)) ((dateTime.drop 2).take 2)) dateTime

/-- Field bounds under which the `strftime` rendering is faithful (every
real calendar timestamp satisfies them). -/
def validT (t : Timestamp) : Prop :=
  t.day < 100 ∧ t.month < 100 ∧ t.year < 10000 ∧ t.hour < 100 ∧ t.minute < 100 ∧ t.second < 100

/-- Chronological order on timestamps: year, month, day, hour, minute,
second, in that significance order. -/
def chronoLt (t1 t2 : Timestamp) : Prop :=
  t1.year < t2.year ∨ (t1.year = t2.year ∧ (t1.month < t2.month ∨ (t1.month = t2.month ∧
    (t1.day < t2.day ∨ (t1.day = t2.day ∧ (t1.hour < t2.hour ∨ (t1.hour = t2.hour ∧
    (t1.minute < t2.minute ∨ (t1.minute = t2.minute ∧ t1.second < t2.second)))))))))

/-! ## Decidability of the model predicates (for concrete evaluation) -/

instance (fs : FS) : Decidable (ParentClosed fs) := by
  unfold ParentClosed; infer_instance

instance (fs : FS) : Decidable (WFfs fs) := by
  unfold WFfs ParentClosed; infer_instance

instance (p q : FPath) : Decidable (strictUnder p q) := by
  unfold strictUnder; infer_instance

instance (t : Timestamp) : Decidable (validT t) := by
  unfold validT; infer_instance

instance (t1 t2 : Timestamp) : Decidable (chronoLt t1 t2) := by
  unfold chronoLt; infer_instance

/-! ## Helper lemmas: the dry-run flag -/

theorem pruneRev_true (rev : List String) : ∀ fs : FS, pruneRev true fs rev = fs := by
  induction rev with
  | nil => intro fs; rfl
  | cons x rev ih =>
    intro fs
    show (if (childPaths fs rev.reverse).isEmpty then pruneRev true fs rev else fs) = fs
    by_cases hc : (childPaths fs rev.reverse).isEmpty
    · rw [if_pos hc]; exact ih fs
    · rw [if_neg hc]

theorem pruneLoopT_true (lp : FPath) (fs : FS) : pruneLoopT true fs lp = fs :=
  pruneRev_true lp.reverse fs

theorem trimLoopT_true (ps : List FPath) (rp : Bool) : ∀ fs : FS, trimLoopT true rp fs ps = fs := by
  induction ps with
  | nil => intro fs; rfl
  | cons p ps ih =>
    intro fs
    cases rp with
    | false => exact ih fs
    | true =>
      have h1 : trimLoopT true true fs (p :: ps) = trimLoopT true true (pruneLoopT true fs p) ps := rfl
      rw [h1, pruneLoopT_true]
      exact ih fs

/-- C6: with `testRun` set, `trimArchives` computes exactly the selection a
real run from the same filesystem state computes, and deletes nothing: the
filesystem after the call is the one before it. -/
theorem dryRun_same_selection_no_deletion (fs : FS) (archiveDir : FPath)
    (entriesToKeep : Int) (removeParentIfEmpty : Bool) :
    (trimArchives true fs archiveDir entriesToKeep removeParentIfEmpty).1
      = (trimArchives false fs archiveDir entriesToKeep removeParentIfEmpty).1
    ∧ (trimArchives true fs archiveDir entriesToKeep removeParentIfEmpty).2 = fs :=
  ⟨rfl, trimLoopT_true _ _ fs⟩

/-- C1 (failing input): with one matched path and `entriesToKeep = 0` the
selection step selects nothing — the slice `[0 : -1 * 0]` is `[0 : 0]`,
the empty prefix — although the claim demands `max(0, 1 - 0) = 1` paths. -/
theorem keepZero_selects_nothing_bug :
    pathsToTrim ["/A/2020/01/01012020-000000".toList] 0 = [] := by decide

/-- C2 (failing input): three matched paths and `entriesToKeep = 0`: the
claim demands all three selected; the code's slice selects none. -/
theorem keepZero_three_archives_bug :
    pathsToTrim ["/A/2021/01/01012021-120000".toList,
      "/A/2021/01/02012021-120000".toList,
      "/A/2021/02/01022021-120000".toList] 0 = [] := by decide

/-- C7 (counterexample): a negative retention count is not rejected and the
selection is not empty: `entriesToKeep = -1` slices `[0 : 1]` and selects
the smallest path. -/
theorem negative_keep_cx :
    pathsToTrim ["/c".toList, "/a".toList, "/b".toList] (-1) = ["/a".toList] := by
  decide

/-- C7 (amended): for a negative retention count `-m` no error is raised;
the slice `[0 : m]` selects the `min(m, count)` lexicographically smallest
entries of the sorted list. -/
theorem negative_keep_takes_oldest (matchingPaths : List (List Char))
    (entriesToKeep : Int) (h : entriesToKeep < 0) :
    pathsToTrim matchingPaths entriesToKeep
      = (List.insertionSort (fun a b => lexLe a b = true) matchingPaths).take
          (-entriesToKeep).toNat := by
  unfold pathsToTrim pySliceStop
  rw [if_neg (by omega)]
  congr 1
  omega

theorem negative_keep_takes_oldest_witness :
    (-2 : Int) < 0 ∧
    pathsToTrim ["/b".toList, "/a".toList] (-2)
      = (List.insertionSort (fun a b => lexLe a b = true)
          ["/b".toList, "/a".toList]).take ((-(-2 : Int)).toNat) :=
  ⟨by decide, negative_keep_takes_oldest _ _ (by decide)⟩

/-- C9 (amended): the removal loop is not guarded by any `try`/`except`:
the first failing path's exception aborts it at once, the state so far is
kept, and the remaining selected paths are never attempted. -/
theorem first_failure_aborts (fails : FPath → Bool) (rp : Bool) (fs : FS)
    (p : FPath) (rest : List FPath) (h : fails p = true) :
    trimLoopE fails rp fs (p :: rest) = (fs, some p) := by
  unfold trimLoopE
  rw [h]
  rfl

theorem first_failure_aborts_witness :
    (fun q : FPath => q == ["x"]) ["x"] = true ∧
    trimLoopE (fun q : FPath => q == ["x"]) true [] [["x"]] = ([], some ["x"]) :=
  ⟨by decide, first_failure_aborts _ _ _ _ _ (by decide)⟩

/-- C9 (counterexample): three archives, `entriesToKeep = 1`, so the two
oldest are selected; the deletion of the first raises, and although the
second selected path's own removal would succeed, it is never attempted:
it is still present afterwards, and the only error report is the
propagated exception. -/
theorem error_abort_cx :
    (["A","2020","01","02012020-000000"] : FPath) ∈
        (trimArchivesE (fun p => p == ["A","2020","01","01012020-000000"])
          [ (["A"], true), (["A","2020"], true), (["A","2020","01"], true),
            (["A","2020","01","01012020-000000"], true),
            (["A","2020","01","02012020-000000"], true),
            (["A","2020","01","03012020-000000"], true) ] ["A"] 1 true).1
    ∧ (fun p : FPath => p == ["A","2020","01","01012020-000000"])
        ["A","2020","01","02012020-000000"] = false
    ∧ ((["A","2020","01","02012020-000000"] : FPath), true) ∈
        (trimArchivesE (fun p => p == ["A","2020","01","01012020-000000"])
          [ (["A"], true), (["A","2020"], true), (["A","2020","01"], true),
            (["A","2020","01","01012020-000000"], true),
            (["A","2020","01","02012020-000000"], true),
            (["A","2020","01","03012020-000000"], true) ] ["A"] 1 true).2.1
    ∧ (trimArchivesE (fun p => p == ["A","2020","01","01012020-000000"])
          [ (["A"], true), (["A","2020"], true), (["A","2020","01"], true),
            (["A","2020","01","01012020-000000"], true),
            (["A","2020","01","02012020-000000"], true),
            (["A","2020","01","03012020-000000"], true) ] ["A"] 1 true).2.2
        = some ["A","2020","01","01012020-000000"] := by
  refine ⟨?_, ?_, ?_, ?_⟩ <;> decide

/-! ## Helper lemmas: membership in the model's primitive operations -/

theorem mem_childPaths {fs : FS} {p q : FPath} :
    q ∈ childPaths fs p ↔ ∃ b, (q, b) ∈ fs ∧ q ≠ [] ∧ q.dropLast = p := by
  simp only [childPaths, List.mem_map, List.mem_filter, Bool.and_eq_true,
    Bool.not_eq_true', List.isEmpty_eq_false, beq_iff_eq]
  constructor
  · rintro ⟨⟨a, b⟩, ⟨hm, hne, hdrop⟩, rfl⟩
    exact ⟨b, hm, hne, hdrop⟩
  · rintro ⟨b, hm, hne, hdrop⟩
    exact ⟨(q, b), ⟨hm, hne, hdrop⟩, rfl⟩

theorem childPaths_not_empty {fs : FS} {p c : FPath} {b : Bool}
    (h : (c, b) ∈ fs) (h2 : c ≠ []) (h3 : c.dropLast = p) :
    (childPaths fs p).isEmpty = false := by
  have hmem : c ∈ childPaths fs p := mem_childPaths.mpr ⟨b, h, h2, h3⟩
  rcases hh : (childPaths fs p).isEmpty with _ | _
  · rfl
  · rw [List.isEmpty_eq_true] at hh
    rw [hh] at hmem
    cases hmem

theorem mem_rmdirF {fs : FS} {p : FPath} {e : FEntry} :
    e ∈ rmdirF fs p ↔ e ∈ fs ∧ ¬(e.1 = p ∧ e.2 = true) := by
  simp only [rmdirF, List.mem_filter, Bool.not_eq_true', Bool.and_eq_false_iff,
    beq_eq_false_iff_ne, ne_eq, Bool.not_eq_true]
  constructor
  · rintro ⟨hm, h | h⟩
    · exact ⟨hm, fun hc => h hc.1⟩
    · exact ⟨hm, fun hc => by rw [hc.2] at h; cases h⟩
  · rintro ⟨hm, h⟩
    refine ⟨hm, ?_⟩
    by_cases h1 : e.1 = p
    · right
      rcases hb : e.2 with _ | _
      · rfl
      · exact absurd ⟨h1, hb⟩ h
    · left; exact h1

/-! ## The ancestor-pruning loop: what it removes and when it stops -/

theorem pruneRev_subset (rv : List String) :
    ∀ (fs : FS) (e : FEntry), e ∈ pruneRev false fs rv → e ∈ fs := by
  induction rv with
  | nil => intro fs e h; exact h
  | cons x rev ih =>
    intro fs e h
    rcases hc : (childPaths fs rev.reverse).isEmpty with _ | _
    · rw [show pruneRev false fs (x :: rev)
          = (if (childPaths fs rev.reverse).isEmpty then
              pruneRev false (rmdirF fs rev.reverse) rev else fs) from rfl, hc] at h
      simpa using h
    · rw [show pruneRev false fs (x :: rev)
          = (if (childPaths fs rev.reverse).isEmpty then
              pruneRev false (rmdirF fs rev.reverse) rev else fs) from rfl, hc] at h
      simp only [if_true] at h
      exact (mem_rmdirF.mp (ih _ _ h)).1

theorem pruneRev_keeps (rv : List String) :
    ∀ (fs : FS) (c : FPath) (b : Bool) (d : FPath),
      (c, b) ∈ fs → c ≠ [] → c.dropLast = d → ¬ strictUnder c rv.reverse →
      ((c, b) ∈ pruneRev false fs rv ∧
        ∀ bd : Bool, (d, bd) ∈ fs → (d, bd) ∈ pruneRev false fs rv) := by
  induction rv with
  | nil =>
    intro fs c b d h1 h2 h3 h4
    exact ⟨h1, fun bd h => h⟩
  | cons x rev ih =>
    intro fs c b d h1 h2 h3 h4
    rw [List.reverse_cons] at h4
    have hstep : pruneRev false fs (x :: rev)
        = (if (childPaths fs rev.reverse).isEmpty then
            pruneRev false (rmdirF fs rev.reverse) rev else fs) := rfl
    rcases hc : (childPaths fs rev.reverse).isEmpty with _ | _
    · rw [hstep, hc, if_neg (by simp)]
      exact ⟨h1, fun bd h => h⟩
    · rw [hstep, hc, if_pos rfl]
      have hcpar : c ≠ rev.reverse := by
        intro hcp
        refine h4 ⟨⟨[x], by rw [hcp]⟩, ?_⟩
        intro he
        have hlen := congrArg List.length he
        rw [hcp] at hlen
        simp [List.length_append] at hlen
      have hc' : (c, b) ∈ rmdirF fs rev.reverse :=
        mem_rmdirF.mpr ⟨h1, fun hx => hcpar hx.1⟩
      have h4' : ¬ strictUnder c rev.reverse := by
        rintro ⟨hpre, hne⟩
        refine h4 ⟨hpre.trans ⟨[x], rfl⟩, ?_⟩
        intro he
        have hle := hpre.length_le
        have hlen := congrArg List.length he
        simp only [List.length_reverse] at hle
        simp [List.length_append] at hlen
        omega
      obtain ⟨hkc, hkd⟩ := ih (rmdirF fs rev.reverse) c b d hc' h2 h3 h4'
      refine ⟨hkc, fun bd hdm => ?_⟩
      have hdne : ¬(d = rev.reverse ∧ bd = true) := by
        rintro ⟨rfl, rfl⟩
        have := childPaths_not_empty h1 h2 h3
        rw [this] at hc
        cases hc
      exact hkd bd (mem_rmdirF.mpr ⟨hdm, hdne⟩)

/-- C4: the ancestor-pruning loop removes a directory only when
`os.listdir` finds it empty at that moment: a parent that still has any
entry stops the upward walk at once, nothing removed (first conjunct), and
a directory with a child that is not itself one of the walked-through
ancestors keeps both the child and itself through the whole loop (second
conjunct). -/
theorem prune_never_removes_nonempty :
    (∀ (tR : Bool) (fs : FS) (lp : FPath), lp ≠ [] →
        (childPaths fs lp.dropLast).isEmpty = false → pruneLoopT tR fs lp = fs)
  ∧ (∀ (fs : FS) (lp : FPath) (c : FPath) (b : Bool) (d : FPath),
        (c, b) ∈ fs → c ≠ [] → c.dropLast = d → ¬ strictUnder c lp →
        ((c, b) ∈ pruneLoopT false fs lp ∧
          ∀ bd : Bool, (d, bd) ∈ fs → (d, bd) ∈ pruneLoopT false fs lp)) := by
  constructor
  · intro tR fs lp h1 h2
    obtain ⟨x, rev, hx⟩ : ∃ x rev, lp.reverse = x :: rev := by
      cases hl : lp.reverse with
      | nil =>
        exact absurd (by simpa using congrArg List.reverse hl) h1
      | cons a t => exact ⟨a, t, rfl⟩
    have hparent : rev.reverse = lp.dropLast := by
      have hlp : lp = rev.reverse ++ [x] := by
        have := congrArg List.reverse hx
        simpa using this
      rw [hlp, List.dropLast_concat]
    unfold pruneLoopT
    rw [hx]
    show (if (childPaths fs rev.reverse).isEmpty then
        pruneRev tR (if tR then fs else rmdirF fs rev.reverse) rev else fs) = fs
    rw [hparent, h2]
    simp
  · intro fs lp c b d h1 h2 h3 h4
    exact pruneRev_keeps lp.reverse fs c b d h1 h2 h3
      (by rw [List.reverse_reverse]; exact h4)

theorem prune_never_removes_nonempty_witness :
    ((["A", "x"] : FPath) ≠ [] ∧
      (childPaths [((["A"] : FPath), true), ((["A", "x"] : FPath), false)]
        (["A", "x"] : FPath).dropLast).isEmpty = false ∧
      pruneLoopT false [((["A"] : FPath), true), ((["A", "x"] : FPath), false)] ["A", "x"]
        = [((["A"] : FPath), true), ((["A", "x"] : FPath), false)]) ∧
    (((["A", "x"] : FPath), false) ∈
        ([((["A"] : FPath), true), ((["A", "x"] : FPath), false)] : FS) ∧
      ¬ strictUnder (["A", "x"] : FPath) (["A", "x"] : FPath) ∧
      ((["A"] : FPath), true) ∈
        pruneLoopT false [((["A"] : FPath), true), ((["A", "x"] : FPath), false)] ["A", "x"]) :=
  ⟨⟨by decide, by decide,
      prune_never_removes_nonempty.1 false _ _ (by decide) (by decide)⟩,
    ⟨by decide, by decide,
      (prune_never_removes_nonempty.2 _ _ ["A", "x"] false ["A"]
        (by decide) (by decide) (by decide) (by decide)).2 true (by decide)⟩⟩

/-- C3 (amended): when the parent the pruning loop examines is empty it is
removed unconditionally: the loop consults no boundary, so this applies to
the archive root and to directories above it just as to any other
ancestor; the walk stops only at the filesystem root or at the first
non-empty directory. -/
theorem prune_removes_empty_parent (fs : FS) (lp : FPath) (h1 : lp ≠ [])
    (h2 : (childPaths fs lp.dropLast).isEmpty = true) :
    (lp.dropLast, true) ∉ pruneLoopT false fs lp := by
  obtain ⟨x, rev, hx⟩ : ∃ x rev, lp.reverse = x :: rev := by
    cases hl : lp.reverse with
    | nil => exact absurd (by simpa using congrArg List.reverse hl) h1
    | cons a t => exact ⟨a, t, rfl⟩
  have hparent : rev.reverse = lp.dropLast := by
    have hlp : lp = rev.reverse ++ [x] := by
      have := congrArg List.reverse hx
      simpa using this
    rw [hlp, List.dropLast_concat]
  unfold pruneLoopT
  rw [hx]
  show (lp.dropLast, true) ∉ (if (childPaths fs rev.reverse).isEmpty then
      pruneRev false (rmdirF fs rev.reverse) rev else fs)
  rw [hparent, h2]
  simp only [if_pos rfl]
  intro hmem
  have hin := pruneRev_subset rev _ _ hmem
  rw [mem_rmdirF] at hin
  exact hin.2 ⟨rfl, rfl⟩

theorem prune_removes_empty_parent_witness :
    (["A", "2020"] : FPath) ≠ [] ∧
    (childPaths [((["A"] : FPath), true)] (["A", "2020"] : FPath).dropLast).isEmpty = true ∧
    ((["A", "2020"] : FPath).dropLast, true) ∉
      pruneLoopT false [((["A"] : FPath), true)] ["A", "2020"] :=
  ⟨by decide, by decide, prune_removes_empty_parent _ _ (by decide) (by decide)⟩

/-- C3 (counterexample): a well-formed archive tree under the boundary
`["A"]` (the `archiveDir`), an in-range retention count `entriesToKeep = 1`,
and a real run: the nested candidate below the selected snapshot is deleted
with the snapshot's subtree, every ancestor becomes empty in turn, and the
pruning loop deletes the archive root itself (the final filesystem is
empty, the boundary entry included). -/
theorem boundary_removed_cx :
    ((["A"] : FPath), true) ∈
      ([ (["A"], true), (["A","2020"], true), (["A","2020","01"], true),
         (["A","2020","01","01012020-000000"], true),
         (["A","2020","01","01012020-000000","A"], true),
         (["A","2020","01","01012020-000000","A","2021"], true),
         (["A","2020","01","01012020-000000","A","2021","01"], true),
         (["A","2020","01","01012020-000000","A","2021","01","01012021-000000"], true) ] : FS)
    ∧ (trimArchives false
        [ (["A"], true), (["A","2020"], true), (["A","2020","01"], true),
          (["A","2020","01","01012020-000000"], true),
          (["A","2020","01","01012020-000000","A"], true),
          (["A","2020","01","01012020-000000","A","2021"], true),
          (["A","2020","01","01012020-000000","A","2021","01"], true),
          (["A","2020","01","01012020-000000","A","2021","01","01012021-000000"], true) ]
        ["A"] 1 true).2 = [] := by
  refine ⟨?_, ?_⟩ <;> decide

/-! ## Helper lemmas: the subtree order -/

theorem strictUnder_length_lt {p q : FPath} (h : strictUnder p q) : p.length < q.length :=
  lt_of_le_of_ne h.1.length_le (fun he => h.2 (h.1.eq_of_length he))

theorem strictUnder_trans {p q r : FPath} (h1 : strictUnder p q) (h2 : strictUnder q r) :
    strictUnder p r := by
  refine ⟨h1.1.trans h2.1, fun he => ?_⟩
  have l1 := strictUnder_length_lt h1
  have l2 := strictUnder_length_lt h2
  rw [he] at l1
  omega

theorem child_strictUnder {p q : FPath} (h2 : q ≠ []) (h3 : q.dropLast = p) :
    strictUnder p q := by
  subst h3
  refine ⟨List.dropLast_prefix q, fun he => ?_⟩
  have := congrArg List.length he
  rw [List.length_dropLast] at this
  have := List.length_pos.mpr h2
  omega

theorem take_strictUnder {q : FPath} {k : Nat} (hk : k < q.length) :
    strictUnder (q.take k) q := by
  refine ⟨List.take_prefix k q, fun he => ?_⟩
  have := congrArg List.length he
  rw [List.length_take] at this
  omega

theorem strictUnder_of_prefix_lt {p q : FPath} (h : p <+: q) (hl : p.length < q.length) :
    strictUnder p q :=
  ⟨h, fun he => by rw [he] at hl; omega⟩

theorem isdir_iff {fs : FS} {q : FPath} : isdir fs q = true ↔ (q, true) ∈ fs := by
  simp only [isdir, List.any_eq_true, Bool.and_eq_true, beq_iff_eq]
  constructor
  · rintro ⟨⟨x, b⟩, hm, rfl, rfl⟩
    exact hm
  · intro hm
    exact ⟨(q, true), hm, rfl, rfl⟩

/-- Ancestors (as directories) of every entry of a parent-closed filesystem
are entries of the filesystem. -/
theorem ancestor_dir_mem {fs : FS} (hPC : ParentClosed fs) :
    ∀ (n : Nat) (x : FPath) (b : Bool), x.length ≤ n → (x, b) ∈ fs →
      ∀ k, 0 < k → k < x.length → (x.take k, true) ∈ fs := by
  intro n
  induction n with
  | zero =>
    intro x b hn hm k hk1 hk2
    omega
  | succ n ih =>
    intro x b hn hm k hk1 hk2
    obtain ⟨hne, hpar⟩ := hPC _ hm
    have hdl : (x.dropLast, true) ∈ fs := by
      rcases hpar with h0 | h
      · have := congrArg List.length h0
        rw [List.length_dropLast] at this
        simp at this
        omega
      · exact h
    rcases Nat.lt_or_ge k (x.length - 1) with hlt | hge
    · have := ih x.dropLast true (by rw [List.length_dropLast]; omega) hdl k hk1
        (by rw [List.length_dropLast]; omega)
      rwa [List.dropLast_eq_take, List.take_take, Nat.min_eq_left (by omega)] at this
    · have hk : k = x.length - 1 := by omega
      rw [hk, ← List.dropLast_eq_take]
      exact hdl

/-- Parent-closedness carries over to any sub-filesystem that keeps every
directory entry. -/
theorem ParentClosed_mono {fs f : FS} (hPC : ParentClosed fs) (hsub : f ⊆ fs)
    (hdirs : ∀ e : FEntry, e ∈ fs → e.2 = true → e ∈ f) : ParentClosed f := by
  intro e he
  obtain ⟨hne, hpar⟩ := hPC e (hsub he)
  refine ⟨hne, ?_⟩
  rcases hpar with h0 | h
  · exact Or.inl h0
  · exact Or.inr (hdirs _ h rfl)

/-! ## `walkNode`: what the walk preserves -/

theorem walkNode_basic (fuel : Nat) : ∀ (fs : FS) (p : FPath),
    ((walkNode fuel fs p).2 ⊆ fs)
  ∧ (∀ e : FEntry, e ∈ fs → e.2 = true → e ∈ (walkNode fuel fs p).2)
  ∧ (∀ e : FEntry, e ∈ fs → ¬ strictUnder p e.1 → e ∈ (walkNode fuel fs p).2)
  ∧ (∀ q, q ∈ (walkNode fuel fs p).1 → strictUnder p q ∧ (q, true) ∈ fs) := by
  induction fuel with
  | zero =>
    intro fs p
    exact ⟨fun {e} he => he, fun e he _ => he, fun e he _ => he,
      fun q hq => absurd hq (List.not_mem_nil q)⟩
  | succ fuel ih =>
    intro fs p
    have hfold : ∀ (l : List FPath) (a : List FPath) (f : FS),
        (∀ q, q ∈ l → q ≠ [] ∧ q.dropLast = p) →
        (∀ q, q ∈ a → strictUnder p q ∧ (q, true) ∈ fs) →
        (∀ e : FEntry, e ∈ f → e ∈ fs) →
        (∀ e : FEntry, e ∈ fs → e.2 = true → e ∈ f) →
        (∀ e : FEntry, e ∈ fs → ¬ strictUnder p e.1 → e ∈ f) →
        ((l.foldl (fun acc d =>
            let r := walkNode fuel acc.2 d
            (acc.1 ++ r.1, r.2)) (a, f)).2 ⊆ fs)
        ∧ (∀ e : FEntry, e ∈ fs → e.2 = true →
            e ∈ (l.foldl (fun acc d =>
              let r := walkNode fuel acc.2 d
              (acc.1 ++ r.1, r.2)) (a, f)).2)
        ∧ (∀ e : FEntry, e ∈ fs → ¬ strictUnder p e.1 →
            e ∈ (l.foldl (fun acc d =>
              let r := walkNode fuel acc.2 d
              (acc.1 ++ r.1, r.2)) (a, f)).2)
        ∧ (∀ q, q ∈ (l.foldl (fun acc d =>
              let r := walkNode fuel acc.2 d
              (acc.1 ++ r.1, r.2)) (a, f)).1 → strictUnder p q ∧ (q, true) ∈ fs) := by
      intro l
      induction l with
      | nil =>
        intro a f _ ha h1 h2 h3
        exact ⟨fun {e} he => h1 e he, h2, h3, ha⟩
      | cons d l ihl =>
        intro a f hl ha h1 h2 h3
        obtain ⟨hdne, hddrop⟩ := hl d (List.mem_cons_self d l)
        have hdp : strictUnder p d := child_strictUnder hdne hddrop
        obtain ⟨ihs, ihdirs, ihout, ihcol⟩ := ih f d
        apply ihl
        · intro q hq
          exact hl q (List.mem_cons_of_mem d hq)
        · intro q hq
          rcases List.mem_append.mp hq with hqa | hqr
          · exact ha q hqa
          · obtain ⟨hu, hm⟩ := ihcol q hqr
            exact ⟨strictUnder_trans hdp hu, h1 _ hm⟩
        · intro e he
          exact h1 e (ihs he)
        · intro e he hdir
          exact ihdirs e (h2 e he hdir) hdir
        · intro e he hout
          refine ihout e (h3 e he hout) ?_
          intro hud
          exact hout (strictUnder_trans hdp hud)
    have hnames : ∀ q, q ∈ childPaths fs p → q ≠ [] ∧ q.dropLast = p := by
      intro q hq
      obtain ⟨b, _, hne, hdrop⟩ := mem_childPaths.mp hq
      exact ⟨hne, hdrop⟩
    have hbase := hfold ((childPaths fs p).filter (fun q => isdir fs q))
      ((childPaths fs p).filter (fun q => isdir fs q))
      (fs.filter (fun e => !((childPaths fs p).contains e.1 && !e.2)))
      (fun q hq => hnames q (List.mem_filter.mp hq).1)
      (fun q hq => by
        obtain ⟨hqn, hqd⟩ := List.mem_filter.mp hq
        obtain ⟨hne, hdrop⟩ := hnames q hqn
        exact ⟨child_strictUnder hne hdrop, isdir_iff.mp hqd⟩)
      (fun e he => (List.mem_filter.mp he).1)
      (fun e he hdir => List.mem_filter.mpr ⟨he, by simp [hdir]⟩)
      (fun e he hout => by
        refine List.mem_filter.mpr ⟨he, ?_⟩
        have hnm : e.1 ∉ childPaths fs p := by
          intro hmem
          obtain ⟨hne, hdrop⟩ := hnames _ hmem
          exact hout (child_strictUnder hne hdrop)
        simp only [Bool.not_eq_true', Bool.and_eq_false_iff]
        left
        rw [← Bool.not_eq_true]
        intro hc
        exact hnm (List.elem_iff.mp hc))
    exact ⟨hbase.1, hbase.2.1, hbase.2.2.1, hbase.2.2.2⟩

theorem walkFold_subset (fuel : Nat) (l : List FPath) : ∀ (a : List FPath) (f : FS),
    (l.foldl (fun acc d =>
      let r := walkNode fuel acc.2 d
      (acc.1 ++ r.1, r.2)) (a, f)).2 ⊆ f := by
  induction l with
  | nil => intro a f e he; exact he
  | cons d l ihl =>
    intro a f e he
    exact (walkNode_basic fuel f d).1 (ihl _ _ he)

theorem walkFold_dirs (fuel : Nat) (l : List FPath) : ∀ (a : List FPath) (f : FS)
    (e : FEntry), e ∈ f → e.2 = true →
    e ∈ (l.foldl (fun acc d =>
      let r := walkNode fuel acc.2 d
      (acc.1 ++ r.1, r.2)) (a, f)).2 := by
  induction l with
  | nil => intro a f e he _; exact he
  | cons d l ihl =>
    intro a f e he hdir
    exact ihl _ _ e ((walkNode_basic fuel f d).2.1 e he hdir) hdir

theorem walkFold_acc (fuel : Nat) (l : List FPath) : ∀ (a : List FPath) (f : FS)
    (q : FPath), q ∈ a →
    q ∈ (l.foldl (fun acc d =>
      let r := walkNode fuel acc.2 d
      (acc.1 ++ r.1, r.2)) (a, f)).1 := by
  induction l with
  | nil => intro a f q hq; exact hq
  | cons d l ihl =>
    intro a f q hq
    exact ihl _ _ q (List.mem_append.mpr (Or.inl hq))

/-! ## `walkNode`: completeness on a well-formed tree -/

theorem walkNode_complete (fuel : Nat) : ∀ (fs : FS) (p : FPath),
    ParentClosed fs →
    (∀ e : FEntry, e ∈ fs → strictUnder p e.1 → e.1.length ≤ p.length + fuel) →
    (∀ e : FEntry, e ∈ fs → e.2 = false → strictUnder p e.1 → e ∉ (walkNode fuel fs p).2)
  ∧ (∀ q, (q, true) ∈ fs → strictUnder p q → q ∈ (walkNode fuel fs p).1) := by
  induction fuel with
  | zero =>
    intro fs p _ hB
    constructor
    · intro e hm _ hu _
      have h1 := strictUnder_length_lt hu
      have h2 := hB e hm hu
      omega
    · intro q hm hu
      have h1 := strictUnder_length_lt hu
      have h2 := hB _ hm hu
      simp at h2
      omega
  | succ fuel ih =>
    intro fs p hPC hB
    have hF1sub : (fs.filter (fun e => !((childPaths fs p).contains e.1 && !e.2))) ⊆ fs := by
      intro e he
      exact (List.mem_filter.mp he).1
    have hF1dirs : ∀ e : FEntry, e ∈ fs → e.2 = true →
        e ∈ fs.filter (fun e => !((childPaths fs p).contains e.1 && !e.2)) := by
      intro e he hdir
      exact List.mem_filter.mpr ⟨he, by simp [hdir]⟩
    have hPC1 : ParentClosed (fs.filter (fun e => !((childPaths fs p).contains e.1 && !e.2))) :=
      ParentClosed_mono hPC hF1sub hF1dirs
    -- the two inline fold lemmas
    have hfile : ∀ (l : List FPath), ∀ (a : List FPath) (f : FS) (c : FPath),
        c ∈ l → (c, true) ∈ f → ParentClosed f →
        (∀ e : FEntry, e ∈ f → strictUnder c e.1 → e.1.length ≤ c.length + fuel) →
        ∀ e : FEntry, e.2 = false → strictUnder c e.1 →
        e ∉ (l.foldl (fun acc d =>
          let r := walkNode fuel acc.2 d
          (acc.1 ++ r.1, r.2)) (a, f)).2 := by
      intro l
      induction l with
      | nil => intro a f c hc; cases hc
      | cons d l ihl =>
        intro a f c hc hcf hPCf hBf e hef heu
        rcases List.mem_cons.mp hc with rfl | hc'
        · have hnr : e ∉ (walkNode fuel f c).2 := by
            by_cases hef2 : e ∈ f
            · exact (ih f c hPCf hBf).1 e hef2 hef heu
            · intro hmem
              exact hef2 ((walkNode_basic fuel f c).1 hmem)
          intro hmem
          exact hnr (walkFold_subset fuel l _ _ hmem)
        · refine ihl _ _ c hc' ((walkNode_basic fuel f d).2.1 _ hcf rfl)
            (ParentClosed_mono hPCf (walkNode_basic fuel f d).1 (walkNode_basic fuel f d).2.1)
            ?_ e hef heu
          intro e' he' hu'
          exact hBf e' ((walkNode_basic fuel f d).1 he') hu'
    have hcollect : ∀ (l : List FPath), ∀ (a : List FPath) (f : FS) (c : FPath),
        c ∈ l → (c, true) ∈ f → ParentClosed f →
        (∀ e : FEntry, e ∈ f → strictUnder c e.1 → e.1.length ≤ c.length + fuel) →
        ∀ q, (q, true) ∈ f → strictUnder c q →
        q ∈ (l.foldl (fun acc d =>
          let r := walkNode fuel acc.2 d
          (acc.1 ++ r.1, r.2)) (a, f)).1 := by
      intro l
      induction l with
      | nil => intro a f c hc; cases hc
      | cons d l ihl =>
        intro a f c hc hcf hPCf hBf q hq hqu
        rcases List.mem_cons.mp hc with rfl | hc'
        · have hq1 : q ∈ (walkNode fuel f c).1 := (ih f c hPCf hBf).2 q hq hqu
          exact walkFold_acc fuel l _ _ q (List.mem_append.mpr (Or.inr hq1))
        · refine ihl _ _ c hc' ((walkNode_basic fuel f d).2.1 _ hcf rfl)
            (ParentClosed_mono hPCf (walkNode_basic fuel f d).1 (walkNode_basic fuel f d).2.1)
            ?_ q ((walkNode_basic fuel f d).2.1 _ hq rfl) hqu
          intro e' he' hu'
          exact hBf e' ((walkNode_basic fuel f d).1 he') hu'
    constructor
    · -- descendant files are all removed
      rintro ⟨q, b⟩ hm hf hu
      cases hf
      replace hu : strictUnder p q := hu
      have hplen := strictUnder_length_lt hu
      have hptake : q.take p.length = p := (List.prefix_iff_eq_take.mp hu.1).symm
      rcases Nat.eq_or_lt_of_le hplen with heq | hgt
      · -- direct child: removed when building fs1, stays removed
        have hdrop : q.dropLast = p := by
          rw [List.dropLast_eq_take, ← heq]
          simpa using hptake
        have hqn : q ∈ childPaths fs p := mem_childPaths.mpr
          ⟨false, hm, (by intro h0; rw [h0] at hplen; simp at hplen), hdrop⟩
        have hnot : (q, false) ∉
            fs.filter (fun e => !((childPaths fs p).contains e.1 && !e.2)) := by
          intro hmem
          have := (List.mem_filter.mp hmem).2
          simp only [Bool.not_eq_true', Bool.and_eq_false_iff, Bool.not_eq_false] at this
          rcases this with hcon | hb
          · rw [← Bool.not_eq_true] at hcon
            exact hcon (List.elem_iff.mpr hqn)
          · cases hb
        intro hmem
        exact hnot (walkFold_subset fuel _ _ _ hmem)
      · -- deeper: handled inside the subtree of the child on the way to q
        have hlenc : (q.take (p.length + 1)).length = p.length + 1 := by
          rw [List.length_take]
          omega
        have hcne : q.take (p.length + 1) ≠ [] := by
          intro h0
          have := congrArg List.length h0
          rw [hlenc] at this
          simp at this
        have hcdrop : (q.take (p.length + 1)).dropLast = p := by
          rw [List.dropLast_eq_take, hlenc, List.take_take]
          simpa using hptake
        have hcmem : (q.take (p.length + 1), true) ∈ fs :=
          ancestor_dir_mem hPC q.length q false (le_refl _) hm (p.length + 1)
            (by omega) hgt
        have hcD : q.take (p.length + 1) ∈
            (childPaths fs p).filter (fun q => isdir fs q) :=
          List.mem_filter.mpr ⟨mem_childPaths.mpr ⟨true, hcmem, hcne, hcdrop⟩,
            isdir_iff.mpr hcmem⟩
        have hpc : strictUnder p (q.take (p.length + 1)) :=
          child_strictUnder hcne hcdrop
        have hcq : strictUnder (q.take (p.length + 1)) q := take_strictUnder hgt
        have hqF1 : ((q, false) : FEntry) ∈
            fs.filter (fun e => !((childPaths fs p).contains e.1 && !e.2)) := by
          refine List.mem_filter.mpr ⟨hm, ?_⟩
          have hnm : q ∉ childPaths fs p := by
            intro hmem
            obtain ⟨_, _, _, hdrop⟩ := mem_childPaths.mp hmem
            have := congrArg List.length hdrop
            rw [List.length_dropLast] at this
            omega
          simp only [Bool.not_eq_true', Bool.and_eq_false_iff]
          left
          rw [← Bool.not_eq_true]
          intro hc
          exact hnm (List.elem_iff.mp hc)
        exact hfile _ _ _ (q.take (p.length + 1)) hcD
          (hF1dirs _ hcmem rfl) hPC1
          (fun e' he' hu' => by
            have := hB e' (hF1sub he') (strictUnder_trans hpc hu')
            rw [hlenc]
            omega)
          (q, false) rfl hcq
    · -- descendant directories are all collected
      intro q hm hu
      have hplen := strictUnder_length_lt hu
      have hptake : q.take p.length = p := (List.prefix_iff_eq_take.mp hu.1).symm
      rcases Nat.eq_or_lt_of_le hplen with heq | hgt
      · have hdrop : q.dropLast = p := by
          rw [List.dropLast_eq_take, ← heq]
          simpa using hptake
        have hqD : q ∈ (childPaths fs p).filter (fun q => isdir fs q) :=
          List.mem_filter.mpr ⟨mem_childPaths.mpr
            ⟨true, hm, (by intro h0; rw [h0] at hplen; simp at hplen), hdrop⟩,
            isdir_iff.mpr hm⟩
        exact walkFold_acc fuel _ _ _ q hqD
      · have hlenc : (q.take (p.length + 1)).length = p.length + 1 := by
          rw [List.length_take]
          omega
        have hcne : q.take (p.length + 1) ≠ [] := by
          intro h0
          have := congrArg List.length h0
          rw [hlenc] at this
          simp at this
        have hcdrop : (q.take (p.length + 1)).dropLast = p := by
          rw [List.dropLast_eq_take, hlenc, List.take_take]
          simpa using hptake
        have hcmem : (q.take (p.length + 1), true) ∈ fs :=
          ancestor_dir_mem hPC q.length q true (le_refl _) hm (p.length + 1)
            (by omega) hgt
        have hcD : q.take (p.length + 1) ∈
            (childPaths fs p).filter (fun q => isdir fs q) :=
          List.mem_filter.mpr ⟨mem_childPaths.mpr ⟨true, hcmem, hcne, hcdrop⟩,
            isdir_iff.mpr hcmem⟩
        have hpc : strictUnder p (q.take (p.length + 1)) :=
          child_strictUnder hcne hcdrop
        have hcq : strictUnder (q.take (p.length + 1)) q := take_strictUnder hgt
        exact hcollect _ _ _ (q.take (p.length + 1)) hcD
          (hF1dirs _ hcmem rfl) hPC1
          (fun e' he' hu' => by
            have := hB e' (hF1sub he') (strictUnder_trans hpc hu')
            rw [hlenc]
            omega)
          q (hF1dirs _ hm rfl) hcq

/-! ## `removeTree`: assembly -/

theorem mem_foldl_rmdirF (l : List FPath) : ∀ (fs : FS) (e : FEntry),
    e ∈ l.foldl (fun acc d => rmdirF acc d) fs ↔ e ∈ fs ∧ ¬(e.2 = true ∧ e.1 ∈ l) := by
  induction l with
  | nil =>
    intro fs e
    simp
  | cons d l ihl =>
    intro fs e
    rw [List.foldl_cons, ihl, mem_rmdirF, List.mem_cons]
    constructor
    · rintro ⟨⟨hm, hnd⟩, hnl⟩
      refine ⟨hm, ?_⟩
      rintro ⟨hb, hd | hl2⟩
      · exact hnd ⟨hd, hb⟩
      · exact hnl ⟨hb, hl2⟩
    · rintro ⟨hm, hn⟩
      exact ⟨⟨hm, fun ⟨hd, hb⟩ => hn ⟨hb, Or.inl hd⟩⟩, fun ⟨hb, hl2⟩ => hn ⟨hb, Or.inr hl2⟩⟩

theorem le_foldr_max (x : Nat) (l : List Nat) (h : x ∈ l) : x ≤ l.foldr Nat.max 0 := by
  induction l with
  | nil => cases h
  | cons a l ihl =>
    rcases List.mem_cons.mp h with rfl | h2
    · exact Nat.le_max_left _ _
    · exact Nat.le_trans (ihl h2) (Nat.le_max_right _ _)

theorem fsFuel_bound (fs : FS) (p : FPath) :
    ∀ e : FEntry, e ∈ fs → strictUnder p e.1 → e.1.length ≤ p.length + fsFuel fs := by
  intro e he _
  have : e.1.length ∈ fs.map (fun e => e.1.length) := List.mem_map.mpr ⟨e, he, rfl⟩
  have h2 := le_foldr_max _ _ this
  have h3 : fs.map (fun e => e.1.length) = (fs.map (fun e => e.1)).map List.length := by
    simp [List.map_map]
  rw [h3] at h2
  unfold fsFuel
  rw [show (fs.map (fun e => e.1)).map List.length = fs.map (fun e => e.1.length) from by
    simp [List.map_map]] at h2
  omega

/-- C5: on a well-formed tree, `pathKiller.walk(p)` followed by
`os.rmdir(p)` removes exactly the entries at or below the directory `p`:
nothing of the subtree survives, and every entry outside the subtree
(`p`'s parent and siblings included) is untouched. -/
theorem removeTree_exact (fs : FS) (p : FPath) (hnd : (fs.map (fun e => e.1)).Nodup)
    (hPC : ParentClosed fs) (hp : (p, true) ∈ fs) :
    ∀ e : FEntry, e ∈ removeTree fs p ↔ (e ∈ fs ∧ ¬ p <+: e.1) := by
  intro e
  have hB := fsFuel_bound fs p
  obtain ⟨hW1, hW2, hW3, hW4⟩ := walkNode_basic (fsFuel fs) fs p
  obtain ⟨hC1, hC2⟩ := walkNode_complete (fsFuel fs) fs p hPC hB
  show e ∈ rmdirF (((walkNode (fsFuel fs) fs p).1.reverse).foldl
      (fun acc d => rmdirF acc d) (walkNode (fsFuel fs) fs p).2) p
    ↔ (e ∈ fs ∧ ¬ p <+: e.1)
  rw [mem_rmdirF, mem_foldl_rmdirF]
  constructor
  · rintro ⟨⟨hin2, hncol⟩, hnp⟩
    have hfs : e ∈ fs := hW1 hin2
    refine ⟨hfs, ?_⟩
    intro hpre
    by_cases heq : e.1 = p
    · rcases hb : e.2 with _ | _
      · have he : e = (p, false) := Prod.ext heq hb
        rw [he] at hfs
        have := List.inj_on_of_nodup_map hnd hfs hp rfl
        simp at this
      · exact hnp ⟨heq, hb⟩
    · have hsu : strictUnder p e.1 := ⟨hpre, fun h => heq h.symm⟩
      rcases hb : e.2 with _ | _
      · exact hC1 e hfs hb hsu hin2
      · have hmem : (e.1, true) ∈ fs := by
          rw [← hb]
          exact hfs
        have hcol := hC2 e.1 hmem hsu
        exact hncol ⟨hb, List.mem_reverse.mpr hcol⟩
  · rintro ⟨hfs, hnpre⟩
    have hnsu : ¬ strictUnder p e.1 := fun h => hnpre h.1
    refine ⟨⟨hW3 e hfs hnsu, ?_⟩, ?_⟩
    · rintro ⟨hb, hcolr⟩
      have := hW4 e.1 (List.mem_reverse.mp hcolr)
      exact hnpre this.1.1
    · rintro ⟨h1, _⟩
      exact hnpre (by rw [h1])

theorem removeTree_exact_witness :
    ((([ ((["A"] : FPath), true), ((["A", "b"] : FPath), false), ((["A", "c"] : FPath), true),
        ((["A", "c", "d"] : FPath), false), ((["s"] : FPath), true) ] : FS).map
          (fun e => e.1)).Nodup ∧
      ParentClosed [ ((["A"] : FPath), true), ((["A", "b"] : FPath), false),
        ((["A", "c"] : FPath), true), ((["A", "c", "d"] : FPath), false),
        ((["s"] : FPath), true) ] ∧
      ((["A"] : FPath), true) ∈
        ([ ((["A"] : FPath), true), ((["A", "b"] : FPath), false), ((["A", "c"] : FPath), true),
          ((["A", "c", "d"] : FPath), false), ((["s"] : FPath), true) ] : FS)) ∧
    ∀ e : FEntry,
      e ∈ removeTree
        [ ((["A"] : FPath), true), ((["A", "b"] : FPath), false), ((["A", "c"] : FPath), true),
          ((["A", "c", "d"] : FPath), false), ((["s"] : FPath), true) ] ["A"]
      ↔ (e ∈ ([ ((["A"] : FPath), true), ((["A", "b"] : FPath), false),
            ((["A", "c"] : FPath), true), ((["A", "c", "d"] : FPath), false),
            ((["s"] : FPath), true) ] : FS) ∧ ¬ (["A"] : FPath) <+: e.1) :=
  ⟨⟨by decide, by decide, by decide⟩,
    removeTree_exact _ _ (by decide) (by decide) (by decide)⟩

/-! ## The default filter: `re.search` semantics -/

theorem anySuffix_iff (p : List Char → Bool) : ∀ s : List Char,
    anySuffix p s = true ↔ ∃ t, t <:+ s ∧ p t = true := by
  intro s
  induction s with
  | nil =>
    constructor
    · intro h
      exact ⟨[], List.suffix_refl [], h⟩
    · rintro ⟨t, ht, hp⟩
      rw [List.suffix_nil.mp ht] at hp
      exact hp
  | cons c cs ih =>
    show (p (c :: cs) || anySuffix p cs) = true ↔ _
    rw [Bool.or_eq_true, ih]
    constructor
    · rintro (h | ⟨t, ht, hp⟩)
      · exact ⟨c :: cs, List.suffix_refl _, h⟩
      · exact ⟨t, List.suffix_cons_iff.mpr (Or.inr ht), hp⟩
    · rintro ⟨t, ht, hp⟩
      rcases List.suffix_cons_iff.mp ht with rfl | ht2
      · exact Or.inl hp
      · exact Or.inr ⟨t, ht2, hp⟩

theorem digitsN_some_iff : ∀ (n : Nat) (v r : List Char),
    digitsN n v = some r ↔ ∃ a, v = a ++ r ∧ a.length = n ∧ a.all Char.isDigit = true := by
  intro n
  induction n with
  | zero =>
    intro v r
    show some v = some r ↔ _
    rw [Option.some.injEq]
    constructor
    · rintro rfl
      exact ⟨[], rfl, rfl, rfl⟩
    · rintro ⟨a, heq, hlen, _⟩
      rw [List.length_eq_zero.mp hlen] at heq
      simpa using heq
  | succ n ih =>
    intro v r
    cases v with
    | nil =>
      constructor
      · intro h
        cases h
      · rintro ⟨a, heq, hlen, _⟩
        have := congrArg List.length heq
        simp [hlen] at this
        exact absurd this (by omega)
    | cons c v' =>
      show (if c.isDigit then digitsN n v' else none) = some r ↔ _
      by_cases hd : c.isDigit
      · rw [if_pos hd, ih]
        constructor
        · rintro ⟨a, heq, hlen, hdig⟩
          exact ⟨c :: a, by simp [heq], by simp [hlen], by simp [hd, hdig]⟩
        · rintro ⟨a, heq, hlen, hdig⟩
          cases a with
          | nil => simp at hlen
          | cons a0 a' =>
            simp only [List.cons_append, List.cons.injEq] at heq
            obtain ⟨rfl, heq2⟩ := heq
            simp only [List.all_cons, Bool.and_eq_true] at hdig
            exact ⟨a', heq2, by simpa using hlen, hdig.2⟩
      · rw [if_neg hd]
        constructor
        · intro h
          cases h
        · rintro ⟨a, heq, hlen, hdig⟩
          cases a with
          | nil => simp at hlen
          | cons a0 a' =>
            simp only [List.cons_append, List.cons.injEq] at heq
            simp only [List.all_cons, Bool.and_eq_true] at hdig
            exact absurd (heq.1 ▸ hdig.1) hd

theorem digitsN_exact : ∀ (a t : List Char), a.all Char.isDigit = true →
    digitsN a.length (a ++ t) = some t := by
  intro a
  induction a with
  | nil => intro t _; rfl
  | cons a0 a' ih =>
    intro t hdig
    simp only [List.all_cons, Bool.and_eq_true] at hdig
    show (if a0.isDigit then digitsN a'.length (a' ++ t) else none) = some t
    rw [if_pos hdig.1, ih t hdig.2]

theorem expectChar_eq_some {c : Char} : ∀ {v r : List Char},
    expectChar c v = some r ↔ v = c :: r := by
  intro v r
  cases v with
  | nil => simp [expectChar]
  | cons x v' =>
    simp only [expectChar, List.cons.injEq]
    split
    next hxc => simp [hxc]
    next hxc => simp [hxc]

theorem fixedTail_iff (v : List Char) :
    fixedTail v = true ↔ FixedTailShape v [] ∨ FixedTailShape v ['\n'] := by
  constructor
  · intro h
    unfold fixedTail at h
    rcases hfin : (((((((expectChar '/' v).bind (digitsN 4)).bind (expectChar '/')).bind
        (digitsN 2)).bind (expectChar '/')).bind (digitsN 8)).bind
        (expectChar '-')).bind (digitsN 6) with _ | r
    · rw [hfin] at h
      cases h
    · rw [hfin] at h
      -- peel the binds
      obtain ⟨v7, h7, hr⟩ := Option.bind_eq_some.mp hfin
      obtain ⟨v6, h6, h7'⟩ := Option.bind_eq_some.mp h7
      obtain ⟨v5, h5, h6'⟩ := Option.bind_eq_some.mp h6
      obtain ⟨v4, h4, h5'⟩ := Option.bind_eq_some.mp h5
      obtain ⟨v3, h3, h4'⟩ := Option.bind_eq_some.mp h4
      obtain ⟨v2, h2, h3'⟩ := Option.bind_eq_some.mp h3
      obtain ⟨v1, h1, h2'⟩ := Option.bind_eq_some.mp h2
      -- h1 : expectChar '/' v = some v1, h2' : digitsN 4 v1 = some v2,
      -- h3' : expectChar '/' v2 = some v3, h4' : digitsN 2 v3 = some v4,
      -- h5' : expectChar '/' v4 = some v5, h6' : digitsN 8 v5 = some v6,
      -- h7' : expectChar '-' v6 = some v7, hr : digitsN 6 v7 = some r
      rw [expectChar_eq_some] at h1 h3' h5' h7'
      obtain ⟨y, hy, hy4, hyd⟩ := digitsN_some_iff 4 v1 v2 |>.mp h2'
      obtain ⟨d, hd, hd2, hdd⟩ := digitsN_some_iff 2 v3 v4 |>.mp h4'
      obtain ⟨a, ha, ha8, had⟩ := digitsN_some_iff 8 v5 v6 |>.mp h6'
      obtain ⟨b, hb, hb6, hbd⟩ := digitsN_some_iff 6 v7 r |>.mp hr
      have hshape : v = '/' :: (y ++ '/' :: (d ++ '/' :: (a ++ '-' :: (b ++ r)))) := by
        rw [h1, hy, h3', hd, h5', ha, h7', hb]
      have hde : dollarEnd r = true := h
      have hor : r = [] ∨ r = ['\n'] := by
        simpa [dollarEnd] using hde
      rcases hor with rfl | rfl
      · exact Or.inl ⟨y, d, a, b, hshape, hy4, hyd, hd2, hdd, ha8, had, hb6, hbd⟩
      · exact Or.inr ⟨y, d, a, b, hshape, hy4, hyd, hd2, hdd, ha8, had, hb6, hbd⟩
  · intro h
    have hcompute : ∀ (rest : List Char), dollarEnd rest = true → FixedTailShape v rest →
        fixedTail v = true := by
      rintro rest hrest ⟨y, d, a, b, hshape, hy4, hyd, hd2, hdd, ha8, had, hb6, hbd⟩
      unfold fixedTail
      have h1 : expectChar '/' v = some (y ++ '/' :: (d ++ '/' :: (a ++ '-' :: (b ++ rest)))) :=
        expectChar_eq_some.mpr hshape
      have h2 : digitsN 4 (y ++ '/' :: (d ++ '/' :: (a ++ '-' :: (b ++ rest))))
          = some ('/' :: (d ++ '/' :: (a ++ '-' :: (b ++ rest)))) := by
        rw [← hy4]
        exact digitsN_exact y _ hyd
      have h3 : expectChar '/' ('/' :: (d ++ '/' :: (a ++ '-' :: (b ++ rest))))
          = some (d ++ '/' :: (a ++ '-' :: (b ++ rest))) := expectChar_eq_some.mpr rfl
      have h4 : digitsN 2 (d ++ '/' :: (a ++ '-' :: (b ++ rest)))
          = some ('/' :: (a ++ '-' :: (b ++ rest))) := by
        rw [← hd2]
        exact digitsN_exact d _ hdd
      have h5 : expectChar '/' ('/' :: (a ++ '-' :: (b ++ rest)))
          = some (a ++ '-' :: (b ++ rest)) := expectChar_eq_some.mpr rfl
      have h6 : digitsN 8 (a ++ '-' :: (b ++ rest)) = some ('-' :: (b ++ rest)) := by
        rw [← ha8]
        exact digitsN_exact a _ had
      have h7 : expectChar '-' ('-' :: (b ++ rest)) = some (b ++ rest) :=
        expectChar_eq_some.mpr rfl
      have h8 : digitsN 6 (b ++ rest) = some rest := by
        rw [← hb6]
        exact digitsN_exact b _ hbd
      rw [h1]
      rw [Option.some_bind, h2, Option.some_bind, h3, Option.some_bind, h4,
        Option.some_bind, h5, Option.some_bind, h6, Option.some_bind, h7,
        Option.some_bind, h8]
      exact hrest
    rcases h with hs | hs
    · exact hcompute [] rfl hs
    · exact hcompute ['\n'] rfl hs

/-- C8 (amended): the compiled default filter matches a string iff it ends
with `archiveDir/<4 digits>/<2 digits>/<8 digits>-<6 digits>`, or ends with
that followed by one final newline (Python's `$` also matches just before a
trailing newline); and every candidate `pathWalker` yields under the
default filter satisfies the compiled filter, so a non-matching entry (a
stray `README`) never enters the candidate list and is never selected. -/
theorem default_filter_semantics :
    (∀ ad s : List Char, defaultMatch ad s = true ↔
      (SpecEndsWith ad s ∨ ∃ s', s = s' ++ ['\n'] ∧ SpecEndsWith ad s'))
  ∧ (∀ (fs : FS) (ad q : FPath), q ∈ candidates fs ad →
      defaultMatch (render ad) (render q) = true) := by
  constructor
  · intro ad s
    unfold defaultMatch
    rw [anySuffix_iff]
    constructor
    · rintro ⟨t, ⟨u, rfl⟩, hand⟩
      rw [Bool.and_eq_true] at hand
      obtain ⟨w, rfl⟩ := List.isPrefixOf_iff_prefix.mp hand.1
      rw [List.drop_left] at hand
      rcases (fixedTail_iff w).mp hand.2 with hsh | hsh
      · exact Or.inl ⟨u, w, by rw [List.append_assoc], hsh⟩
      · obtain ⟨y, d, a, b, hw, hy4, hyd, hd2, hdd, ha8, had, hb6, hbd⟩ := hsh
        refine Or.inr ⟨u ++ ad ++ ('/' :: (y ++ '/' :: (d ++ '/' :: (a ++ '-' :: b)))), ?_, ?_⟩
        · rw [hw]
          simp [List.append_assoc]
        · exact ⟨u, '/' :: (y ++ '/' :: (d ++ '/' :: (a ++ '-' :: b))), rfl,
            y, d, a, b, by simp, hy4, hyd, hd2, hdd, ha8, had, hb6, hbd⟩
    · rintro (⟨u, v, rfl, hsh⟩ | ⟨s', rfl, u, v, rfl, hsh⟩)
      · refine ⟨ad ++ v, ⟨u, by rw [List.append_assoc]⟩, ?_⟩
        rw [Bool.and_eq_true, List.drop_left]
        exact ⟨List.isPrefixOf_iff_prefix.mpr ⟨v, rfl⟩, (fixedTail_iff v).mpr (Or.inl hsh)⟩
      · obtain ⟨y, d, a, b, hv, hy4, hyd, hd2, hdd, ha8, had, hb6, hbd⟩ := hsh
        refine ⟨ad ++ (v ++ ['\n']), ⟨u, by simp [List.append_assoc]⟩, ?_⟩
        rw [Bool.and_eq_true, List.drop_left]
        refine ⟨List.isPrefixOf_iff_prefix.mpr ⟨v ++ ['\n'], rfl⟩, ?_⟩
        refine (fixedTail_iff _).mpr (Or.inr ⟨y, d, a, b, ?_, hy4, hyd, hd2, hdd, ha8, had, hb6, hbd⟩)
        rw [hv]
        simp [List.append_assoc]
  · intro fs ad q hq
    exact (List.mem_filter.mp hq).2

theorem default_filter_semantics_witness :
    (["A", "2020", "01", "01012020-000000"] : FPath) ∈
      candidates [ ((["A"] : FPath), true), ((["A", "2020"] : FPath), true),
        ((["A", "2020", "01"] : FPath), true),
        ((["A", "2020", "01", "01012020-000000"] : FPath), true) ] ["A"]
    ∧ defaultMatch (render ["A"]) (render ["A", "2020", "01", "01012020-000000"]) = true :=
  ⟨by decide, default_filter_semantics.2
    [ ((["A"] : FPath), true), ((["A", "2020"] : FPath), true),
      ((["A", "2020", "01"] : FPath), true),
      ((["A", "2020", "01", "01012020-000000"] : FPath), true) ] ["A"]
    ["A", "2020", "01", "01012020-000000"] (by decide)⟩

theorem specEndsWith_last_digit {ad s : List Char} (h : SpecEndsWith ad s) :
    ∃ c, s.getLast? = some c ∧ c.isDigit = true := by
  obtain ⟨u, v, hs, y, d, a, b, hshape, _, _, _, _, _, _, hb6, hbd⟩ := h
  have hbne : b ≠ [] := by
    intro h0
    rw [h0] at hb6
    cases hb6
  have hv : v = ('/' :: (y ++ '/' :: (d ++ '/' :: (a ++ ['-'])))) ++ b := by
    rw [hshape]
    simp [List.append_assoc]
  have hs2 : s = (u ++ ad ++ ('/' :: (y ++ '/' :: (d ++ '/' :: (a ++ ['-']))))) ++ b := by
    rw [hs, hv]
    simp [List.append_assoc]
  refine ⟨b.getLast hbne, ?_, ?_⟩
  · rw [hs2, List.getLast?_append_of_ne_nil _ hbne]
    exact (List.getLast?_eq_getLast b hbne).symm ▸ rfl
  · exact List.all_eq_true.mp hbd _ (List.getLast_mem hbne)

/-- C8 (counterexample): a path whose name ends with the archive pattern
and then a newline character: `re.search` with the `$`-anchored default
filter matches it, but the path does not end with the pattern at the end
of the string, refuting the claimed equivalence. -/
theorem default_filter_newline_cx :
    defaultMatch "/A".toList ("/A/2020/01/01012020-000000".toList ++ ['\n']) = true
    ∧ ¬ SpecEndsWith "/A".toList ("/A/2020/01/01012020-000000".toList ++ ['\n']) := by
  refine ⟨by decide, ?_⟩
  intro h
  obtain ⟨c, hlast, hdig⟩ := specEndsWith_last_digit h
  have : c = '\n' := by
    rw [show ("/A/2020/01/01012020-000000".toList ++ ['\n']).getLast? = some '\n' from by decide]
      at hlast
    injection hlast with h2
    exact h2.symm
  rw [this] at hdig
  cases hdig

/-! ## The archive path layout is chronological -/

theorem lexLt_irrefl : ∀ x : List Char, lexLt x x = false := by
  intro x
  induction x with
  | nil => rfl
  | cons c x ih =>
    show (decide (c.toNat < c.toNat) || (c.toNat == c.toNat && lexLt x x)) = false
    simp [Nat.lt_irrefl, ih]

theorem lexLt_asymm : ∀ x y : List Char, lexLt x y = true → lexLt y x = true → False := by
  intro x
  induction x with
  | nil =>
    intro y h1 h2
    cases y with
    | nil => cases h1
    | cons b y => cases h2
  | cons c x ih =>
    intro y h1 h2
    cases y with
    | nil => cases h1
    | cons b y =>
      simp only [lexLt, Bool.or_eq_true, Bool.and_eq_true, decide_eq_true_eq,
        beq_iff_eq] at h1 h2
      rcases h1 with h1 | ⟨he1, h1⟩ <;> rcases h2 with h2 | ⟨he2, h2⟩
      · omega
      · omega
      · omega
      · exact ih y h1 h2

theorem lexLt_append_same : ∀ (a x y : List Char), lexLt (a ++ x) (a ++ y) = lexLt x y := by
  intro a
  induction a with
  | nil => intro x y; rfl
  | cons c a ih =>
    intro x y
    show (decide (c.toNat < c.toNat) || (c.toNat == c.toNat && lexLt (a ++ x) (a ++ y))) = _
    simp [Nat.lt_irrefl, ih]

theorem lexLt_cons_same (c : Char) (x y : List Char) :
    lexLt (c :: x) (c :: y) = lexLt x y :=
  lexLt_append_same [c] x y

theorem digitCh_lt : ∀ a : Nat, a < 10 → ∀ b : Nat, b < 10 →
    (((digitCh a).toNat < (digitCh b).toNat) ↔ a < b) := by decide

theorem pad2_lt {n1 n2 : Nat} (h1 : n1 < 100) (h2 : n2 < 100) (h : n1 < n2)
    (r1 r2 : List Char) : lexLt (pad2 n1 ++ r1) (pad2 n2 ++ r2) = true := by
  show (decide ((digitCh (n1 / 10)).toNat < (digitCh (n2 / 10)).toNat) ||
    ((digitCh (n1 / 10)).toNat == (digitCh (n2 / 10)).toNat &&
      (decide ((digitCh (n1 % 10)).toNat < (digitCh (n2 % 10)).toNat) ||
        ((digitCh (n1 % 10)).toNat == (digitCh (n2 % 10)).toNat && lexLt r1 r2)))) = true
  rcases Nat.lt_or_ge (n1 / 10) (n2 / 10) with hlt | hge
  · have hdig := (digitCh_lt (n1 / 10) (by omega) (n2 / 10) (by omega)).mpr hlt
    simp [hdig]
  · have heqd : n1 / 10 = n2 / 10 := by omega
    have hm : n1 % 10 < n2 % 10 := by omega
    have hdig := (digitCh_lt (n1 % 10) (by omega) (n2 % 10) (by omega)).mpr hm
    rw [heqd]
    simp [hdig]

theorem pad4_lt {n1 n2 : Nat} (h1 : n1 < 10000) (h2 : n2 < 10000) (h : n1 < n2)
    (r1 r2 : List Char) : lexLt (pad4 n1 ++ r1) (pad4 n2 ++ r2) = true := by
  unfold pad4
  rcases Nat.lt_or_ge (n1 / 100) (n2 / 100) with hlt | hge
  · rw [List.append_assoc, List.append_assoc]
    exact pad2_lt (by omega) (by omega) hlt _ _
  · have heqd : n1 / 100 = n2 / 100 := by omega
    have hm : n1 % 100 < n2 % 100 := by omega
    rw [heqd, List.append_assoc, List.append_assoc, lexLt_append_same]
    exact pad2_lt (by omega) (by omega) hm _ _

theorem thisArchive_eq (archive : List Char) (t : Timestamp) :
    thisArchive archive t = archive ++ '/' :: (pad4 t.year ++ '/' :: (pad2 t.month ++ '/' ::
      (pad2 t.day ++ (pad2 t.month ++ (pad4 t.year ++ '-' ::
        (pad2 t.hour ++ (pad2 t.minute ++ pad2 t.second))))))) := by
  simp [thisArchive, pathJoin, dateTimeStr, pad4, pad2]

theorem chrono_trichotomy (t1 t2 : Timestamp) : chronoLt t1 t2 ∨ t1 = t2 ∨ chronoLt t2 t1 := by
  obtain ⟨d1, m1, y1, h1, mi1, s1⟩ := t1
  obtain ⟨d2, m2, y2, h2, mi2, s2⟩ := t2
  simp only [chronoLt, Timestamp.mk.injEq]
  omega

theorem thisArchive_lt_of_chronoLt (archive : List Char) (t1 t2 : Timestamp)
    (v1 : validT t1) (v2 : validT t2) (h : chronoLt t1 t2) :
    lexLt (thisArchive archive t1) (thisArchive archive t2) = true := by
  obtain ⟨hd1, hm1, hy1, hh1, hmi1, hs1⟩ := v1
  obtain ⟨hd2, hm2, hy2, hh2, hmi2, hs2⟩ := v2
  rw [thisArchive_eq, thisArchive_eq]
  rw [show archive ++ '/' :: (pad4 t1.year ++ '/' :: (pad2 t1.month ++ '/' ::
      (pad2 t1.day ++ (pad2 t1.month ++ (pad4 t1.year ++ '-' ::
        (pad2 t1.hour ++ (pad2 t1.minute ++ pad2 t1.second)))))))
    = (archive ++ ['/']) ++ (pad4 t1.year ++ '/' :: (pad2 t1.month ++ '/' ::
      (pad2 t1.day ++ (pad2 t1.month ++ (pad4 t1.year ++ '-' ::
        (pad2 t1.hour ++ (pad2 t1.minute ++ pad2 t1.second))))))) from by simp]
  rw [show archive ++ '/' :: (pad4 t2.year ++ '/' :: (pad2 t2.month ++ '/' ::
      (pad2 t2.day ++ (pad2 t2.month ++ (pad4 t2.year ++ '-' ::
        (pad2 t2.hour ++ (pad2 t2.minute ++ pad2 t2.second)))))))
    = (archive ++ ['/']) ++ (pad4 t2.year ++ '/' :: (pad2 t2.month ++ '/' ::
      (pad2 t2.day ++ (pad2 t2.month ++ (pad4 t2.year ++ '-' ::
        (pad2 t2.hour ++ (pad2 t2.minute ++ pad2 t2.second))))))) from by simp]
  rw [lexLt_append_same]
  rcases h with hy | ⟨hyeq, h⟩
  · exact pad4_lt hy1 hy2 hy _ _
  · rw [hyeq]
    rw [show pad4 t2.year ++ '/' :: (pad2 t1.month ++ '/' ::
        (pad2 t1.day ++ (pad2 t1.month ++ (pad4 t2.year ++ '-' ::
          (pad2 t1.hour ++ (pad2 t1.minute ++ pad2 t1.second))))))
      = (pad4 t2.year ++ ['/']) ++ (pad2 t1.month ++ '/' ::
        (pad2 t1.day ++ (pad2 t1.month ++ (pad4 t2.year ++ '-' ::
          (pad2 t1.hour ++ (pad2 t1.minute ++ pad2 t1.second)))))) from by simp]
    rw [show pad4 t2.year ++ '/' :: (pad2 t2.month ++ '/' ::
        (pad2 t2.day ++ (pad2 t2.month ++ (pad4 t2.year ++ '-' ::
          (pad2 t2.hour ++ (pad2 t2.minute ++ pad2 t2.second))))))
      = (pad4 t2.year ++ ['/']) ++ (pad2 t2.month ++ '/' ::
        (pad2 t2.day ++ (pad2 t2.month ++ (pad4 t2.year ++ '-' ::
          (pad2 t2.hour ++ (pad2 t2.minute ++ pad2 t2.second)))))) from by simp]
    rw [lexLt_append_same]
    rcases h with hm | ⟨hmeq, h⟩
    · exact pad2_lt hm1 hm2 hm _ _
    · rw [hmeq]
      rw [show pad2 t2.month ++ '/' :: (pad2 t1.day ++ (pad2 t2.month ++ (pad4 t2.year ++ '-' ::
            (pad2 t1.hour ++ (pad2 t1.minute ++ pad2 t1.second)))))
        = (pad2 t2.month ++ ['/']) ++ (pad2 t1.day ++ (pad2 t2.month ++ (pad4 t2.year ++ '-' ::
            (pad2 t1.hour ++ (pad2 t1.minute ++ pad2 t1.second))))) from by simp]
      rw [show pad2 t2.month ++ '/' :: (pad2 t2.day ++ (pad2 t2.month ++ (pad4 t2.year ++ '-' ::
            (pad2 t2.hour ++ (pad2 t2.minute ++ pad2 t2.second)))))
        = (pad2 t2.month ++ ['/']) ++ (pad2 t2.day ++ (pad2 t2.month ++ (pad4 t2.year ++ '-' ::
            (pad2 t2.hour ++ (pad2 t2.minute ++ pad2 t2.second))))) from by simp]
      rw [lexLt_append_same]
      rcases h with hd | ⟨hdeq, h⟩
      · exact pad2_lt hd1 hd2 hd _ _
      · rw [hdeq, lexLt_append_same, lexLt_append_same, lexLt_append_same,
          lexLt_cons_same]
        rcases h with hh | ⟨hheq, h⟩
        · exact pad2_lt hh1 hh2 hh _ _
        · rw [hheq, lexLt_append_same]
          rcases h with hmi | ⟨hmieq, hsec⟩
          · exact pad2_lt hmi1 hmi2 hmi _ _
          · rw [hmieq, lexLt_append_same]
            have := pad2_lt hs1 hs2 hsec ([] : List Char) ([] : List Char)
            simpa using this

/-- C10: with the default naming (`archive/YYYY/MM/DDMMYYYY-HHMMSS`, all
fields zero-padded to fixed width), two archive paths built by `backup`
under the same `archive` compare lexicographically (Python string `<`)
exactly as their timestamps compare chronologically; the ascending string
sort in `trimArchives` therefore orders default-layout candidates
oldest-first. -/
theorem archive_paths_chronological (archive : List Char) (t1 t2 : Timestamp)
    (v1 : validT t1) (v2 : validT t2) :
    chronoLt t1 t2 ↔ lexLt (thisArchive archive t1) (thisArchive archive t2) = true := by
  constructor
  · exact thisArchive_lt_of_chronoLt archive t1 t2 v1 v2
  · intro hlex
    rcases chrono_trichotomy t1 t2 with hc | heq | hc
    · exact hc
    · rw [heq, lexLt_irrefl] at hlex
      cases hlex
    · exact absurd hlex (fun hl =>
        lexLt_asymm _ _ hl (thisArchive_lt_of_chronoLt archive t2 t1 v2 v1 hc))

theorem archive_paths_chronological_witness :
    validT ⟨1, 1, 2020, 12, 0, 0⟩ ∧ validT ⟨2, 1, 2020, 12, 0, 0⟩ ∧
    (chronoLt ⟨1, 1, 2020, 12, 0, 0⟩ ⟨2, 1, 2020, 12, 0, 0⟩ ↔
      lexLt (thisArchive "/backup".toList ⟨1, 1, 2020, 12, 0, 0⟩)
        (thisArchive "/backup".toList ⟨2, 1, 2020, 12, 0, 0⟩) = true) :=
  ⟨by decide, by decide,
    archive_paths_chronological "/backup".toList _ _ (by decide) (by decide)⟩
